import Mathlib

/-!
# Verification of the sales-chart aggregation pipeline

Shallow embedding of `src/main.rs` of the `sales_chart` program: CSV schema
validation, row parsing, the fold/merge aggregation over rows, and the
preparation of the two sorted series consumed by the chart renderer.

Modelling conventions:

* A Rust `f64` is embedded as `FVal`: an exact rational for finite values,
  plus the special values `+inf`, `-inf` and `NaN` with IEEE-style addition
  and partial comparison.  Rounding of finite arithmetic is idealized away
  (finite sums are exact); the special-value structure (NaN propagation,
  `inf + -inf = NaN`, `partial_cmp` returning `None` on NaN) is kept, since
  the claims about panics depend on it.
* A Rust `HashMap` accumulated through `entry(k).or_insert(0.0) += v` is
  embedded as an insertion-ordered association list built by `addEntry`.
  `HashMap` equality is lookup equality (`alookup`).
* `StringRecord` is a `List String`; byte strings are Lean `String`s and
  `str::to_lowercase` is per-character `Char.toLower` (all inputs of
  interest are ASCII).
* A panic (`unwrap` on `None`, the panicking comparator inside
  `par_sort_unstable_by`) is embedded by returning `none` from an
  `Option`-valued function.
* `chrono::NaiveDate` is represented by its `num_days_from_ce` integer
  (`from_num_days_from_ce` is the inverse order isomorphism), so
  `date_to_key`/`key_to_date` are the identity on that representation.
* The rayon `par_iter().try_fold(..).try_reduce(..)` skeleton is embedded by
  `process_chunks`: the row list is split into contiguous chunks, every chunk
  is folded sequentially from the empty pair of maps, and the per-chunk
  results are merged left-to-right with the reduction closure of the source.
  The sequential specification (`process_rows`) is the one-chunk instance.
-/

set_option allowUnsafeReducibility true
attribute [semireducible] Rat.add Rat.mul Rat.inv Rat.ofScientific Rat.sub

namespace SalesChart

/-- Idealized value of a Rust `f64`: exact rationals for finite values plus
the IEEE special values.  Finite arithmetic is exact (no rounding). -/
inductive FVal where
  | finite (q : ℚ)
  | posInf
  | negInf
  | nan
deriving DecidableEq

namespace FVal

/-- IEEE-style addition on `FVal` (finite part exact): NaN propagates,
`+inf + -inf = NaN`, infinities absorb finite values. -/
def add : FVal → FVal → FVal
  | nan, _ => nan
  | _, nan => nan
  | posInf, negInf => nan
  | negInf, posInf => nan
  | posInf, _ => posInf
  | _, posInf => posInf
  | negInf, _ => negInf
  | _, negInf => negInf
  | finite p, finite q => finite (p + q)

instance : Zero FVal := ⟨finite 0⟩
instance : Add FVal := ⟨add⟩

theorem add_def (a b : FVal) : a + b = add a b := rfl

theorem zero_def : (0 : FVal) = finite 0 := rfl

protected theorem add_comm (a b : FVal) : add a b = add b a := by
  cases a <;> cases b <;> simp [add] <;> ring

protected theorem add_assoc (a b c : FVal) :
    add (add a b) c = add a (add b c) := by
  cases a <;> cases b <;> cases c <;> simp [add] <;> ring

protected theorem zero_add (a : FVal) : add (finite 0) a = a := by
  cases a <;> simp [add]

protected theorem add_zero (a : FVal) : add a (finite 0) = a := by
  cases a <;> simp [add]

instance : AddCommMonoid FVal where
  add_assoc := FVal.add_assoc
  zero_add := FVal.zero_add
  add_zero := FVal.add_zero
  add_comm := FVal.add_comm
  nsmul := nsmulRec

/-- `f64::partial_cmp`: `none` (Rust `None`) iff either operand is NaN. -/
def cmpPartial : FVal → FVal → Option Ordering
  | nan, _ => none
  | _, nan => none
  | posInf, posInf => some .eq
  | posInf, _ => some .gt
  | _, posInf => some .lt
  | negInf, negInf => some .eq
  | negInf, _ => some .lt
  | _, negInf => some .gt
  | finite p, finite q =>
      some (if p < q then .lt else if p = q then .eq else .gt)

/-- `f64::is_nan`. -/
def isNan : FVal → Bool
  | nan => true
  | _ => false

/-- `f64::max` (NaN-ignoring maximum), used by the chart range computation. -/
def fmax : FVal → FVal → FVal
  | nan, y => y
  | x, nan => x
  | posInf, _ => posInf
  | _, posInf => posInf
  | negInf, y => y
  | x, negInf => x
  | finite p, finite q => finite (max p q)

/-- The partial order on `f64` induced by `partial_cmp`:
`x ≤ y` iff the comparison is defined and not `Greater`. -/
def fle (x y : FVal) : Prop :=
  cmpPartial x y = some .lt ∨ cmpPartial x y = some .eq

theorem cmpPartial_eq_none_iff (x y : FVal) :
    cmpPartial x y = none ↔ x = nan ∨ y = nan := by
  cases x <;> cases y <;> simp [cmpPartial]

theorem cmpPartial_gt_flip {x y : FVal} (h : cmpPartial x y = some .gt) :
    cmpPartial y x = some .lt := by
  cases x <;> cases y <;> simp_all [cmpPartial]
  exact lt_of_le_of_ne h.1 (Ne.symm h.2)

theorem fle_trans {x y z : FVal} (h₁ : fle x y) (h₂ : fle y z) : fle x z := by
  cases x <;> cases y <;> cases z <;> simp_all [fle, cmpPartial]
  rcases h₁ with h₁ | ⟨h₁le, h₁eq⟩ <;> rcases h₂ with h₂ | ⟨h₂le, h₂eq⟩
  · exact Or.inl (lt_trans h₁ h₂)
  · exact Or.inl (h₂eq ▸ h₁)
  · exact Or.inl (by rw [h₁eq]; exact h₂)
  · exact Or.inr ⟨le_of_eq (h₁eq.trans h₂eq).symm, h₁eq.trans h₂eq⟩

end FVal

/-! ## Field parsing -/

/-- Decimal digits to a natural number (most significant first). -/
def natOfDigits (ds : List Char) : ℕ :=
  ds.foldl (fun n c => 10 * n + (c.toNat - 48)) 0

/-- Strip one optional leading sign; `true` means negative. -/
def parseSign : List Char → Bool × List Char
  | '-' :: t => (true, t)
  | '+' :: t => (false, t)
  | cs => (false, cs)

/-- Exponent part after `e`/`E`: optional sign then at least one digit,
consuming the rest of the input. -/
def parseExpPart (cs : List Char) : Option ℤ :=
  let (neg, rest) := parseSign cs
  let ds := rest.takeWhile Char.isDigit
  let rest2 := rest.dropWhile Char.isDigit
  if ds = [] ∨ rest2 ≠ [] then none
  else some (if neg then -(natOfDigits ds : ℤ) else (natOfDigits ds : ℤ))

/-- The unsigned-number part of Rust's `f64` grammar:
`Digits ('.' Digits?)? Exp?` or `'.' Digits Exp?`, evaluated exactly in `ℚ`. -/
def parseNumber (cs : List Char) : Option ℚ :=
  let ip := cs.takeWhile Char.isDigit
  let r1 := cs.dropWhile Char.isDigit
  let (fp, r2) : List Char × List Char :=
    match r1 with
    | '.' :: t => (t.takeWhile Char.isDigit, t.dropWhile Char.isDigit)
    | _ => ([], r1)
  if ip = [] ∧ fp = [] then none
  else
    let base : ℚ := (natOfDigits ip : ℚ) + (natOfDigits fp : ℚ) / (10 : ℚ) ^ fp.length
    match r2 with
    | [] => some base
    | e :: t =>
      if e = 'e' ∨ e = 'E' then
        match parseExpPart t with
        | some ex => some (base * (10 : ℚ) ^ ex)
        | none => none
      else none

/-- `str::parse::<f64>()` on Rust's documented grammar: an optional sign,
then a case-insensitive `inf`/`infinity`/`nan` keyword or a decimal number
with optional fraction and exponent.  Finite values are exact rationals.
The error text is the display of Rust's `ParseFloatError`. -/
def parseF64 (s : String) : Except String FVal :=
  let (neg, rest) := parseSign s.data
  let low := rest.map Char.toLower
  if low = "inf".data ∨ low = "infinity".data then
    .ok (if neg then .negInf else .posInf)
  else if low = "nan".data then .ok .nan
  else
    match parseNumber rest with
    | some q => .ok (.finite (if neg then -q else q))
    | none => .error "invalid float literal"

/-- Leap year of the proleptic Gregorian calendar. -/
def isLeapYear (y : ℤ) : Bool :=
  (y % 4 == 0 && y % 100 != 0) || y % 400 == 0

/-- Days in month `m` (1-based) of year `y`. -/
def daysInMonth (y : ℤ) (m : ℕ) : ℕ :=
  if m = 2 then (if isLeapYear y then 29 else 28)
  else if m = 4 ∨ m = 6 ∨ m = 9 ∨ m = 11 then 30
  else 31

/-- Days strictly before month `m` (1-based) in year `y`. -/
def daysBeforeMonth (y : ℤ) (m : ℕ) : ℕ :=
  (List.range (m - 1)).foldl (fun acc i => acc + daysInMonth y (i + 1)) 0

/-- `chrono::Datelike::num_days_from_ce` of the proleptic Gregorian date
`(y, m, d)`: day 1 is 0001-01-01. -/
def daysFromCE (y : ℤ) (m d : ℕ) : ℤ :=
  365 * (y - 1) + (y - 1).fdiv 4 - (y - 1).fdiv 100 + (y - 1).fdiv 400
    + (daysBeforeMonth y m : ℤ) + (d : ℤ)

/-- `NaiveDate::parse_from_str(s, "%Y-%m-%d")`, returning the date in its
`num_days_from_ce` representation.  Following chrono's parser: leading
whitespace is trimmed before each numeric field (ASCII whitespace here, as
with `lowerStr`); `%Y` takes an optional sign and then an unbounded digit
run when signed but at most four digits when unsigned; `%m` and `%d` take at
most two digits and no sign; the separators are the literal `-` with no
trimming before them; the whole input must be consumed (`"trailing input"`);
and the parsed numbers must form an existing calendar date with the year in
`NaiveDate`'s range `-262144..=262143` (`"input is out of range"`).  Error
texts follow chrono's `ParseError` display. -/
def parseNaiveDate (s : String) : Except String ℤ :=
  let t0 := s.data.dropWhile Char.isWhitespace
  let (signed, neg, r0) : Bool × Bool × List Char :=
    match t0 with
    | '-' :: t => (true, true, t)
    | '+' :: t => (true, false, t)
    | _ => (false, false, t0)
  let yds := if signed then r0.takeWhile Char.isDigit
    else (r0.takeWhile Char.isDigit).take 4
  let r1 := r0.drop yds.length
  if yds = [] then
    if r0 = [] then .error "premature end of input"
    else .error "input contains invalid characters"
  else
    let y : ℤ := if neg then -(natOfDigits yds : ℤ) else (natOfDigits yds : ℤ)
    match r1 with
    | '-' :: r2 =>
      let r2' := r2.dropWhile Char.isWhitespace
      let mds := (r2'.takeWhile Char.isDigit).take 2
      let r3 := r2'.drop mds.length
      if mds = [] then
        if r2' = [] then .error "premature end of input"
        else .error "input contains invalid characters"
      else
        let m := natOfDigits mds
        match r3 with
        | '-' :: r4 =>
          let r4' := r4.dropWhile Char.isWhitespace
          let dds := (r4'.takeWhile Char.isDigit).take 2
          let r5 := r4'.drop dds.length
          if dds = [] then
            if r4' = [] then .error "premature end of input"
            else .error "input contains invalid characters"
          else
            let d := natOfDigits dds
            if r5 ≠ [] then .error "trailing input"
            else if -262144 ≤ y ∧ y ≤ 262143 ∧ 1 ≤ m ∧ m ≤ 12 ∧
                1 ≤ d ∧ d ≤ daysInMonth y m then
              .ok (daysFromCE y m d)
            else .error "input is out of range"
        | [] => .error "premature end of input"
        | _ => .error "input contains invalid characters"
    | [] => .error "premature end of input"
    | _ => .error "input contains invalid characters"

/-! ## Schema validation and record parsing -/

/-- A CSV `StringRecord`: the list of its fields. -/
abbrev Record := List String

/-- `type DateKey = i32` of the source (embedded unbounded). -/
abbrev DateKey := ℤ

/-- `date_to_key`: `num_days_from_ce` on the day-number representation of
`NaiveDate` (the identity there). -/
def date_to_key (d : ℤ) : DateKey := d

/-- `key_to_date`: `from_num_days_from_ce` on the day-number representation
(the identity there; it is the inverse order isomorphism of `date_to_key`). -/
def key_to_date (k : DateKey) : ℤ := k

/-- `str::to_lowercase`, per character (ASCII-faithful). -/
def lowerStr (s : String) : String := ⟨s.data.map Char.toLower⟩

/-- `validate_csv_structure`: exactly three header columns, and each of
`month`, `product`, `sales_amount` present case-insensitively; the first
missing name (in that fixed order) is reported. -/
def validate_csv_structure (headers : List String) : Except String Unit :=
  if headers.length ≠ 3 then .error "Invalid column length"
  else
    match ["month", "product", "sales_amount"].find?
        (fun e => !headers.any (fun h => lowerStr h == e)) with
    | some e => .error ("Missing column: " ++ e)
    | none => .ok ()

/-- A parsed data row: `(MonthKey, ProductName, Amount)`. -/
abbrev ParsedRow := DateKey × String × FVal

/-- The per-record body of the `try_fold` closure up to the map insertions:
field-count check, month parse (with `-01` appended), product text, amount
parse; errors carry the offending raw field text. -/
def parseRecord (mi pi si : ℕ) (r : Record) : Except String ParsedRow :=
  if r.length ≠ 3 then .error "Invalid column length in data row"
  else
    let date_str := r.getD mi ""
    match parseNaiveDate (date_str ++ "-01") with
    | .error e => .error ("Invalid date format in \"" ++ date_str ++ "\": " ++ e)
    | .ok month =>
      let product := r.getD pi ""
      let sales_str := r.getD si ""
      match parseF64 sales_str with
      | .error e => .error ("Invalid sales number in \"" ++ sales_str ++ "\": " ++ e)
      | .ok sales => .ok (date_to_key month, product, sales)

/-! ## Aggregation -/

/-- Insertion-ordered association-list embedding of a `HashMap _ f64`. -/
abbrev AggMap (κ : Type) := List (κ × FVal)

/-- `*map.entry(k).or_insert(0.0) += v`. -/
def addEntry {κ : Type} [DecidableEq κ] : AggMap κ → κ → FVal → AggMap κ
  | [], k, v => [(k, 0 + v)]
  | (k₁, w) :: t, k, v =>
    if k₁ = k then (k₁, w + v) :: t else (k₁, w) :: addEntry t k v

/-- The pair `(sales_by_month, sales_by_product)`. -/
abbrev AggState := AggMap DateKey × AggMap String

/-- The `try_fold`/`try_reduce` identity `(HashMap::new(), HashMap::new())`. -/
def emptyState : AggState := ([], [])

/-- Add one parsed row's amount into both maps. -/
def insertParsed (s : AggState) (p : ParsedRow) : AggState :=
  (addEntry s.1 p.1 p.2.2, addEntry s.2 p.2.1 p.2.2)

/-- Body of the `try_fold` closure: parse one record, then insert it. -/
def stepRow (mi pi si : ℕ) (s : AggState) (r : Record) :
    Except String AggState :=
  (parseRecord mi pi si r).map (insertParsed s)

/-- Sequential fail-fast fold of rows from state `s` (one worker's
`try_fold` over its chunk). -/
def foldRows (mi pi si : ℕ) (s : AggState) : List Record → Except String AggState
  | [] => .ok s
  | r :: t =>
    match stepRow mi pi si s r with
    | .error e => .error e
    | .ok s' => foldRows mi pi si s' t

/-- The sequential (single-chunk) aggregation over all data rows. -/
def process_rows (mi pi si : ℕ) (rows : List Record) : Except String AggState :=
  foldRows mi pi si emptyState rows

/-- Fold every entry of `x` into `a` by `*acc.entry(k).or_insert(0.0) += v`. -/
def accum {κ : Type} [DecidableEq κ] (a : AggMap κ) (x : List (κ × FVal)) : AggMap κ :=
  x.foldl (fun m e => addEntry m e.1 e.2) a

/-- The `try_reduce` merge closure. -/
def mergeState (s t : AggState) : AggState := (accum s.1 t.1, accum s.2 t.2)

/-- Combination of two fallible partial results: first error wins. -/
def combineE (a b : Except String AggState) : Except String AggState :=
  match a with
  | .error e => .error e
  | .ok s =>
    match b with
    | .error e => .error e
    | .ok t => .ok (mergeState s t)

/-- The rayon `par_iter().try_fold(..).try_reduce(..)` skeleton at a given
contiguous chunking: every chunk is folded from the empty state and the
per-chunk results are merged in order starting from the identity. -/
def process_chunks (mi pi si : ℕ) (css : List (List Record)) :
    Except String AggState :=
  (css.map (foldRows mi pi si emptyState)).foldl combineE (.ok emptyState)

/-- Fail-fast parse of all rows (the parsing part of the fold, isolated). -/
def parseAll (mi pi si : ℕ) : List Record → Except String (List ParsedRow)
  | [] => .ok []
  | r :: t =>
    match parseRecord mi pi si r with
    | .error e => .error e
    | .ok p =>
      match parseAll mi pi si t with
      | .error e => .error e
      | .ok ps => .ok (p :: ps)

/-- Insert a list of parsed rows in order. -/
def applyAll (s : AggState) (ps : List ParsedRow) : AggState :=
  ps.foldl insertParsed s

/-- `process_sales_data`, given the already-read header record and the data
rows: schema validation, the three `position(..).unwrap()` index lookups
(`none` = panic), then the aggregation of the rows.  The outer `Option` is
`none` exactly when an `unwrap` would panic. -/
def process_sales_data (headers : List String) (records : List Record) :
    Option (Except String AggState) :=
  match validate_csv_structure headers with
  | .error e => some (.error e)
  | .ok () =>
    match List.findIdx? (fun h => lowerStr h == "month") headers,
        List.findIdx? (fun h => lowerStr h == "product") headers,
        List.findIdx? (fun h => lowerStr h == "sales_amount") headers with
    | some mi, some pI, some si => some (process_rows mi pI si records)
    | _, _, _ => none

/-! ## Plot-data preparation -/

/-- The (total) key ordering used by `par_sort_unstable_by_key(|(date, _)| date)`
on the monthly vector. -/
def mLE (a b : DateKey × FVal) : Prop := a.1 ≤ b.1

instance : DecidableRel mLE := fun a b => inferInstanceAs (Decidable (a.1 ≤ b.1))

instance : IsTotal (DateKey × FVal) mLE := ⟨fun a b => Int.le_total a.1 b.1⟩

instance : IsTrans (DateKey × FVal) mLE := ⟨fun _ _ _ => Int.le_trans⟩

/-- The panicking comparator `|a, b| b.1.partial_cmp(&a.1).unwrap()` of the
product sort (descending by value); `none` is the unwrap panic. -/
def cmpProducts (a b : String × FVal) : Option Ordering :=
  FVal.cmpPartial b.2 a.2

/-- One insertion step of a sort driven by a partial comparator; `none`
propagates a comparator panic. -/
def pinsert {α : Type} (cmp : α → α → Option Ordering) (x : α) :
    List α → Option (List α)
  | [] => some [x]
  | y :: t =>
    match cmp x y with
    | none => none
    | some .gt => (pinsert cmp x t).map (y :: ·)
    | some _ => some (x :: y :: t)

/-- Sorting by a partial comparator; `none` iff some executed comparison
panicked (models `par_sort_unstable_by` with the panicking comparator). -/
def psort {α : Type} (cmp : α → α → Option Ordering) :
    List α → Option (List α)
  | [] => some []
  | x :: t =>
    match psort cmp t with
    | none => none
    | some t' => pinsert cmp x t'

/-- `prepare_data_for_plotting`: the monthly map becomes a `(date, sum)`
vector sorted ascending by date; the product map is sorted descending by
value with the panicking comparator (`none` = panic inside the sort). -/
def prepare_data_for_plotting (s : AggState) :
    Option (List (DateKey × FVal) × List (String × FVal)) :=
  let monthly_data :=
    List.insertionSort mLE (s.1.map (fun e => (key_to_date e.1, e.2)))
  match psort cmpProducts s.2 with
  | none => none
  | some product_data => some (monthly_data, product_data)

/-- The data-dependent prefix of `create_line_chart`: the axis ranges
`monthly_data.first().unwrap().0 .. monthly_data.last().unwrap().0` and
`0f64 .. fold(0f64, f64::max)`; `none` is the `unwrap` panic on an empty
series. -/
def lineChartRange (monthly_data : List (DateKey × FVal)) :
    Option ((DateKey × DateKey) × FVal) :=
  match monthly_data.head?, monthly_data.getLast? with
  | some f, some l =>
    some ((f.1, l.1), (monthly_data.map Prod.snd).foldl FVal.fmax 0)
  | _, _ => none

/-! ## Concrete example inputs -/

instance {ε α : Type} [DecidableEq ε] [DecidableEq α] : DecidableEq (Except ε α)
  | .error e, .error f =>
    if h : e = f then isTrue (by rw [h]) else isFalse (by simp [h])
  | .error _, .ok _ => isFalse (by simp)
  | .ok _, .error _ => isFalse (by simp)
  | .ok a, .ok b =>
    if h : a = b then isTrue (by rw [h]) else isFalse (by simp [h])

/-- The header of the spec's end-to-end example. -/
def exHeaders : List String := ["month", "product", "sales_amount"]

/-- The four data rows of the spec's end-to-end example. -/
def exRows : List Record :=
  [["2023-01", "Product A", "100.50"], ["2023-01", "Product B", "200.75"],
   ["2023-02", "Product A", "150.25"], ["2023-02", "Product B", "180.00"]]

/-- The aggregate state the example rows produce. -/
def exState : AggState :=
  ([(daysFromCE 2023 1 1, .finite 301.25), (daysFromCE 2023 2 1, .finite 330.25)],
   [("Product A", .finite 250.75), ("Product B", .finite 380.75)])

/-! ## Association-map lemmas -/

/-- First-match lookup in an association map: the observation under which the
embedded maps are compared (`HashMap` equality is lookup equality). -/
def alookup {κ : Type} [DecidableEq κ] : AggMap κ → κ → Option FVal
  | [], _ => none
  | (k₁, w) :: t, k => if k₁ = k then some w else alookup t k

/-- Lookup with default `0`. -/
def getD {κ : Type} [DecidableEq κ] (m : AggMap κ) (k : κ) : FVal :=
  (alookup m k).getD 0

/-- Total contribution of key `k` in a list of keyed values. -/
def weight {κ : Type} [DecidableEq κ] (l : List (κ × FVal)) (k : κ) : FVal :=
  ((l.filter fun e => decide (e.1 = k)).map Prod.snd).sum

/-- Sum of all stored values. -/
def entrySum {κ : Type} (m : List (κ × FVal)) : FVal := (m.map Prod.snd).sum

section MapLemmas

variable {κ : Type} [DecidableEq κ]

theorem getD_nil (k : κ) : getD ([] : AggMap κ) k = 0 := rfl

theorem weight_nil (k : κ) : weight ([] : AggMap κ) k = 0 := rfl

theorem weight_cons (k₁ : κ) (v : FVal) (t : List (κ × FVal)) (k : κ) :
    weight ((k₁, v) :: t) k = (if k₁ = k then v else 0) + weight t k := by
  by_cases h : k₁ = k <;> simp [weight, h]

theorem weight_eq_zero_of_filter_nil {l : List (κ × FVal)} {k : κ}
    (h : l.filter (fun e => decide (e.1 = k)) = []) : weight l k = 0 := by
  simp [weight, h]

theorem weight_append (l₁ l₂ : List (κ × FVal)) (k : κ) :
    weight (l₁ ++ l₂) k = weight l₁ k + weight l₂ k := by
  simp [weight, List.filter_append]

theorem alookup_addEntry_self (m : AggMap κ) (k : κ) (v : FVal) :
    alookup (addEntry m k v) k = some (getD m k + v) := by
  induction m with
  | nil => simp [addEntry, alookup, getD]
  | cons e t ih =>
    obtain ⟨k₁, w⟩ := e
    by_cases h : k₁ = k
    · subst h
      simp [addEntry, alookup, getD]
    · simp [addEntry, alookup, h, ih, getD]

theorem alookup_addEntry_ne (m : AggMap κ) {k k' : κ} (h : k' ≠ k) (v : FVal) :
    alookup (addEntry m k' v) k = alookup m k := by
  induction m with
  | nil => simp [addEntry, alookup, h]
  | cons e t ih =>
    obtain ⟨k₁, w⟩ := e
    by_cases h₁ : k₁ = k'
    · subst h₁
      simp [addEntry, alookup, h]
    · simp only [addEntry, if_neg h₁]
      by_cases h₂ : k₁ = k <;> simp [alookup, h₂, ih]

theorem getD_addEntry_self (m : AggMap κ) (k : κ) (v : FVal) :
    getD (addEntry m k v) k = getD m k + v := by
  simp [getD, alookup_addEntry_self]

theorem getD_addEntry_ne (m : AggMap κ) {k k' : κ} (h : k' ≠ k) (v : FVal) :
    getD (addEntry m k' v) k = getD m k := by
  simp [getD, alookup_addEntry_ne m h]

theorem alookup_eq_none_iff (m : AggMap κ) (k : κ) :
    alookup m k = none ↔ m.filter (fun e => decide (e.1 = k)) = [] := by
  induction m with
  | nil => simp [alookup]
  | cons e t ih =>
    obtain ⟨k₁, w⟩ := e
    by_cases h : k₁ = k <;> simp [alookup, h, ih]

theorem weight_addEntry (m : AggMap κ) (k' k : κ) (v : FVal) :
    weight (addEntry m k' v) k = weight m k + (if k' = k then v else 0) := by
  induction m with
  | nil =>
    by_cases h : k' = k <;> simp [addEntry, weight_cons, weight_nil, h]
  | cons e t ih =>
    obtain ⟨k₁, w⟩ := e
    by_cases h₁ : k₁ = k'
    · subst h₁
      simp only [addEntry, if_pos rfl]
      by_cases h : k₁ = k <;> simp [h, weight_cons] <;> abel
    · simp only [addEntry, if_neg h₁, weight_cons, ih]
      abel

theorem accum_nil (m : AggMap κ) : accum m [] = m := rfl

theorem accum_cons (m : AggMap κ) (k : κ) (v : FVal) (t : List (κ × FVal)) :
    accum m ((k, v) :: t) = accum (addEntry m k v) t := rfl

theorem accum_append (m : AggMap κ) (l₁ l₂ : List (κ × FVal)) :
    accum m (l₁ ++ l₂) = accum (accum m l₁) l₂ := by
  simp [accum, List.foldl_append]

theorem alookup_accum (l : List (κ × FVal)) (m : AggMap κ) (k : κ) :
    alookup (accum m l) k =
      if l.filter (fun e => decide (e.1 = k)) = [] then alookup m k
      else some (getD m k + weight l k) := by
  induction l generalizing m with
  | nil => simp [accum_nil]
  | cons e t ih =>
    obtain ⟨k₁, v⟩ := e
    rw [accum_cons, ih]
    by_cases h : k₁ = k
    · subst h
      simp only [List.filter_cons, decide_eq_true_eq, if_pos rfl]
      by_cases ht : t.filter (fun e => decide (e.1 = k₁)) = []
      · simp [ht, alookup_addEntry_self, weight_cons,
          weight_eq_zero_of_filter_nil ht]
      · simp [ht, getD_addEntry_self, weight_cons]
        abel
    · simp only [List.filter_cons, decide_eq_true_eq, if_neg h]
      by_cases ht : t.filter (fun e => decide (e.1 = k)) = [] <;>
        simp [ht, alookup_addEntry_ne _ h, getD_addEntry_ne _ h, weight_cons, h]

theorem getD_accum (l : List (κ × FVal)) (m : AggMap κ) (k : κ) :
    getD (accum m l) k = getD m k + weight l k := by
  rw [getD, alookup_accum]
  by_cases h : l.filter (fun e => decide (e.1 = k)) = []
  · simp [h, weight_eq_zero_of_filter_nil h, getD]
  · simp [h, getD]

theorem weight_accum (l : List (κ × FVal)) (m : AggMap κ) (k : κ) :
    weight (accum m l) k = weight m k + weight l k := by
  induction l generalizing m with
  | nil => simp [accum_nil, weight_nil]
  | cons e t ih =>
    obtain ⟨k₁, v⟩ := e
    rw [accum_cons, ih, weight_addEntry, weight_cons]
    abel

theorem alookup_accum_none_iff (l : List (κ × FVal)) (m : AggMap κ) (k : κ) :
    alookup (accum m l) k = none ↔
      alookup m k = none ∧ l.filter (fun e => decide (e.1 = k)) = [] := by
  rw [alookup_accum]
  by_cases h : l.filter (fun e => decide (e.1 = k)) = [] <;> simp [h]

theorem alookup_accum_base (l : List (κ × FVal)) (k : κ) :
    alookup (accum ([] : AggMap κ) l) k =
      if l.filter (fun e => decide (e.1 = k)) = [] then none
      else some (weight l k) := by
  rw [alookup_accum]
  by_cases h : l.filter (fun e => decide (e.1 = k)) = [] <;>
    simp [h, alookup, getD_nil]

/-- Folding an already-accumulated map into `m` has the same lookups as
folding the underlying entry list directly. -/
theorem alookup_accum_accum (a : AggMap κ) (l : List (κ × FVal)) (k : κ) :
    alookup (accum a (accum ([] : AggMap κ) l)) k = alookup (accum a l) k := by
  rw [alookup_accum, alookup_accum]
  have hfilt : (accum ([] : AggMap κ) l).filter (fun e => decide (e.1 = k)) = [] ↔
      l.filter (fun e => decide (e.1 = k)) = [] := by
    rw [← alookup_eq_none_iff, ← alookup_eq_none_iff]
    constructor
    · intro h
      have := (alookup_accum_none_iff l ([] : AggMap κ) k).mp h
      exact (alookup_eq_none_iff _ _).mpr this.2
    · intro h
      exact (alookup_accum_none_iff l ([] : AggMap κ) k).mpr
        ⟨rfl, (alookup_eq_none_iff _ _).mp h⟩
  have hw : weight (accum ([] : AggMap κ) l) k = weight l k := by
    rw [weight_accum]
    simp [weight_nil]
  by_cases h : l.filter (fun e => decide (e.1 = k)) = []
  · simp [hfilt.mpr h, h]
  · rw [if_neg (fun hc => h (hfilt.mp hc)), if_neg h, hw]

/-- Merging a chunk-local map (built from `l₁` over the empty map) into an
accumulator and then accumulating `l₂` has the same lookups as accumulating
`l₁ ++ l₂` directly. -/
theorem alookup_merge_chunk (a : AggMap κ) (l₁ l₂ : List (κ × FVal)) (k : κ) :
    alookup (accum (accum a (accum ([] : AggMap κ) l₁)) l₂) k =
      alookup (accum a (l₁ ++ l₂)) k := by
  rw [accum_append, alookup_accum l₂ (accum a (accum ([] : AggMap κ) l₁)) k,
    alookup_accum l₂ (accum a l₁) k, alookup_accum_accum]
  rw [show getD (accum a (accum ([] : AggMap κ) l₁)) k = getD (accum a l₁) k from by
    rw [getD, getD, alookup_accum_accum]]

end MapLemmas

/-! ## Factorization of the fold through parsing -/

/-- The `(MonthKey, Amount)` pairs of a parsed-row list. -/
def monthPairs (ps : List ParsedRow) : List (DateKey × FVal) :=
  ps.map (fun p => (p.1, p.2.2))

/-- The `(ProductName, Amount)` pairs of a parsed-row list. -/
def prodPairs (ps : List ParsedRow) : List (String × FVal) :=
  ps.map (fun p => (p.2.1, p.2.2))

theorem applyAll_nil (s : AggState) : applyAll s [] = s := rfl

theorem applyAll_cons (s : AggState) (p : ParsedRow) (t : List ParsedRow) :
    applyAll s (p :: t) = applyAll (insertParsed s p) t := rfl

theorem applyAll_eq (ps : List ParsedRow) (s : AggState) :
    applyAll s ps = (accum s.1 (monthPairs ps), accum s.2 (prodPairs ps)) := by
  induction ps generalizing s with
  | nil => simp [applyAll_nil, monthPairs, prodPairs, accum_nil]
  | cons p t ih =>
    rw [applyAll_cons, ih]
    rfl

theorem foldRows_eq_parseAll (mi pi si : ℕ) (rows : List Record) : ∀ s,
    foldRows mi pi si s rows = (parseAll mi pi si rows).map (applyAll s) := by
  induction rows with
  | nil => intro s; rfl
  | cons r t ih =>
    intro s
    simp only [foldRows, stepRow, parseAll]
    cases hp : parseRecord mi pi si r with
    | error e => rfl
    | ok p =>
      simp only [Except.map]
      rw [ih (insertParsed s p)]
      cases hq : parseAll mi pi si t with
      | error e => rfl
      | ok ps => rfl

theorem parseAll_append (mi pi si : ℕ) (xs ys : List Record) :
    parseAll mi pi si (xs ++ ys) =
      match parseAll mi pi si xs with
      | .error e => .error e
      | .ok ps =>
        match parseAll mi pi si ys with
        | .error e => .error e
        | .ok qs => .ok (ps ++ qs) := by
  induction xs with
  | nil =>
    simp only [List.nil_append, parseAll]
    cases parseAll mi pi si ys <;> rfl
  | cons r t ih =>
    simp only [List.cons_append, parseAll, List.append_eq]
    rw [ih]
    cases parseRecord mi pi si r with
    | error e => rfl
    | ok p =>
      cases parseAll mi pi si t with
      | error e => rfl
      | ok ps =>
        cases parseAll mi pi si ys <;> rfl

/-! ## Chunk-invariance lemmas (rayon skeleton vs sequential fold) -/

theorem combineE_error_left (e : String) (x : Except String AggState) :
    combineE (.error e) x = .error e := rfl

theorem combineE_ok_error (s : AggState) (e : String) :
    combineE (.ok s) (.error e) = .error e := rfl

theorem foldl_combineE_error (L : List (Except String AggState)) (e : String) :
    L.foldl combineE (.error e) = .error e := by
  induction L with
  | nil => rfl
  | cons x t ih => simp [List.foldl_cons, combineE_error_left, ih]

/-- If some row of the joined chunk list fails to parse, the chunked
fold-merge fails (with the first error in chunk order). -/
theorem process_chunks_error (mi pi si : ℕ) (css : List (List Record)) :
    ∀ (acc : AggState) (e : String), parseAll mi pi si css.flatten = .error e →
      (css.map (foldRows mi pi si emptyState)).foldl combineE (.ok acc) = .error e := by
  induction css with
  | nil => intro acc e h; simp [parseAll] at h
  | cons c rest ih =>
    intro acc e h
    rw [List.flatten_cons, parseAll_append] at h
    simp only [List.map_cons, List.foldl_cons]
    cases hc : parseAll mi pi si c with
    | error e₁ =>
      rw [hc] at h
      cases h
      rw [foldRows_eq_parseAll, hc]
      simp [Except.map, combineE_ok_error, foldl_combineE_error]
    | ok ps =>
      rw [hc] at h
      cases hr : parseAll mi pi si rest.flatten with
      | error e₂ =>
        rw [hr] at h
        cases h
        rw [foldRows_eq_parseAll, hc]
        show (rest.map (foldRows mi pi si emptyState)).foldl combineE
          (.ok (mergeState acc (applyAll emptyState ps))) = _
        exact ih _ _ hr
      | ok qs => rw [hr] at h; cases h

/-- On success, the chunked fold-merge agrees with direct accumulation of
all parsed rows, up to map-lookup equality. -/
theorem process_chunks_ok (mi pi si : ℕ) (css : List (List Record)) :
    ∀ (acc : AggState) (PS : List ParsedRow), parseAll mi pi si css.flatten = .ok PS →
      ∃ s, (css.map (foldRows mi pi si emptyState)).foldl combineE (.ok acc) = .ok s ∧
        (∀ k, alookup s.1 k = alookup (accum acc.1 (monthPairs PS)) k) ∧
        (∀ k, alookup s.2 k = alookup (accum acc.2 (prodPairs PS)) k) := by
  induction css with
  | nil =>
    intro acc PS h
    simp only [List.flatten_nil, parseAll] at h
    cases h
    exact ⟨acc, rfl, fun k => by simp [monthPairs, accum_nil],
      fun k => by simp [prodPairs, accum_nil]⟩
  | cons c rest ih =>
    intro acc PS h
    rw [List.flatten_cons, parseAll_append] at h
    cases hc : parseAll mi pi si c with
    | error e₁ => rw [hc] at h; cases h
    | ok ps =>
      rw [hc] at h
      cases hr : parseAll mi pi si rest.flatten with
      | error e₂ => rw [hr] at h; cases h
      | ok qs =>
        rw [hr] at h
        cases h
        simp only [List.map_cons, List.foldl_cons]
        rw [foldRows_eq_parseAll, hc]
        show ∃ s, (rest.map (foldRows mi pi si emptyState)).foldl combineE
            (.ok (mergeState acc (applyAll emptyState ps))) = .ok s ∧ _ ∧ _
        obtain ⟨s, hs, h₁, h₂⟩ := ih (mergeState acc (applyAll emptyState ps)) qs hr
        refine ⟨s, hs, fun k => ?_, fun k => ?_⟩
        · rw [h₁ k, applyAll_eq]
          show alookup (accum (accum acc.1 (accum ([] : AggMap DateKey)
            (monthPairs ps))) (monthPairs qs)) k = _
          rw [alookup_merge_chunk,
            show monthPairs (ps ++ qs) = monthPairs ps ++ monthPairs qs from by
              simp [monthPairs]]
        · rw [h₂ k, applyAll_eq]
          show alookup (accum (accum acc.2 (accum ([] : AggMap String)
            (prodPairs ps))) (prodPairs qs)) k = _
          rw [alookup_merge_chunk,
            show prodPairs (ps ++ qs) = prodPairs ps ++ prodPairs qs from by
              simp [prodPairs]]

/-! ## Key uniqueness and value sums of the aggregate maps -/

section MapInvariants

variable {κ : Type} [DecidableEq κ]

theorem keys_addEntry (m : AggMap κ) (k : κ) (v : FVal) :
    (addEntry m k v).map Prod.fst =
      if k ∈ m.map Prod.fst then m.map Prod.fst else m.map Prod.fst ++ [k] := by
  induction m with
  | nil => simp [addEntry]
  | cons e t ih =>
    obtain ⟨k₁, w⟩ := e
    by_cases h : k₁ = k
    · subst h
      simp [addEntry]
    · simp only [addEntry, if_neg h, List.map_cons, ih]
      by_cases hm : k ∈ t.map Prod.fst <;>
        simp [hm, h, Ne.symm h]

theorem nodup_keys_addEntry {m : AggMap κ} (hm : (m.map Prod.fst).Nodup)
    (k : κ) (v : FVal) : ((addEntry m k v).map Prod.fst).Nodup := by
  rw [keys_addEntry]
  by_cases h : k ∈ m.map Prod.fst
  · simpa [h] using hm
  · simp only [if_neg h]
    simp [List.nodup_append, hm, h]

theorem nodup_keys_accum {m : AggMap κ} (hm : (m.map Prod.fst).Nodup)
    (l : List (κ × FVal)) : ((accum m l).map Prod.fst).Nodup := by
  induction l generalizing m with
  | nil => exact hm
  | cons e t ih =>
    obtain ⟨k, v⟩ := e
    rw [accum_cons]
    exact ih (nodup_keys_addEntry hm k v)

theorem entrySum_addEntry (m : AggMap κ) (k : κ) (v : FVal) :
    entrySum (addEntry m k v) = entrySum m + v := by
  induction m with
  | nil => simp [addEntry, entrySum]
  | cons e t ih =>
    obtain ⟨k₁, w⟩ := e
    by_cases h : k₁ = k
    · subst h
      simp [addEntry, entrySum]
      abel
    · simp [addEntry, h, entrySum] at ih ⊢
      rw [ih]
      abel

theorem entrySum_accum (m : AggMap κ) (l : List (κ × FVal)) :
    entrySum (accum m l) = entrySum m + entrySum l := by
  induction l generalizing m with
  | nil => simp [accum_nil, entrySum]
  | cons e t ih =>
    obtain ⟨k, v⟩ := e
    rw [accum_cons, ih, entrySum_addEntry]
    simp [entrySum]
    abel

end MapInvariants

/-! ## The partial (panicking) product sort -/

theorem cmpProducts_gt_flip {x y : String × FVal}
    (h : cmpProducts x y = some .gt) : cmpProducts y x = some .lt :=
  FVal.cmpPartial_gt_flip h

/-- The adjacency guarantee of a successful product sort: the comparison of
`a` before `b` is defined and not `Greater`, i.e. `b`'s value is `≤` `a`'s in
the `partial_cmp` order. -/
def pOK (a b : String × FVal) : Prop :=
  cmpProducts a b = some .lt ∨ cmpProducts a b = some .eq

theorem pOK_iff_fle (a b : String × FVal) : pOK a b ↔ FVal.fle b.2 a.2 :=
  Iff.rfl

instance : IsTrans (String × FVal) pOK :=
  ⟨fun _ _ _ h₁ h₂ => (pOK_iff_fle _ _).mpr
    (FVal.fle_trans ((pOK_iff_fle _ _).mp h₂) ((pOK_iff_fle _ _).mp h₁))⟩

theorem pinsert_perm {α : Type} (cmp : α → α → Option Ordering) (x : α)
    (l : List α) : ∀ l', pinsert cmp x l = some l' → List.Perm l' (x :: l) := by
  induction l with
  | nil =>
    intro l' h
    simp only [pinsert, Option.some.injEq] at h
    subst h
    rfl
  | cons y t ih =>
    intro l' h
    simp only [pinsert] at h
    cases hc : cmp x y with
    | none => rw [hc] at h; cases h
    | some o =>
      rw [hc] at h
      cases o with
      | lt =>
        simp only [Option.some.injEq] at h
        subst h
        rfl
      | eq =>
        simp only [Option.some.injEq] at h
        subst h
        rfl
      | gt =>
        obtain ⟨t', ht', rfl⟩ := Option.map_eq_some'.mp h
        exact ((ih t' ht').cons y).trans (List.Perm.swap x y t)

theorem psort_perm {α : Type} (cmp : α → α → Option Ordering)
    (l : List α) : ∀ l', psort cmp l = some l' → List.Perm l' l := by
  induction l with
  | nil =>
    intro l' h
    simp only [psort, Option.some.injEq] at h
    subst h
    rfl
  | cons x t ih =>
    intro l' h
    simp only [psort] at h
    cases hs : psort cmp t with
    | none => rw [hs] at h; cases h
    | some t' =>
      rw [hs] at h
      exact (pinsert_perm cmp x t' l' h).trans ((ih t' hs).cons x)

theorem pinsert_head {α : Type} (cmp : α → α → Option Ordering) (x : α)
    (l : List α) : ∀ l', pinsert cmp x l = some l' →
      l'.head? = some x ∨ l'.head? = l.head? := by
  cases l with
  | nil =>
    intro l' h
    simp only [pinsert, Option.some.injEq] at h
    subst h
    exact Or.inl rfl
  | cons y t =>
    intro l' h
    simp only [pinsert] at h
    cases hc : cmp x y with
    | none => rw [hc] at h; cases h
    | some o =>
      rw [hc] at h
      cases o with
      | lt =>
        simp only [Option.some.injEq] at h
        subst h
        exact Or.inl rfl
      | eq =>
        simp only [Option.some.injEq] at h
        subst h
        exact Or.inl rfl
      | gt =>
        obtain ⟨t', ht', rfl⟩ := Option.map_eq_some'.mp h
        exact Or.inr rfl

theorem pinsert_chain (x : String × FVal) (l : List (String × FVal)) :
    ∀ l', List.Chain' pOK l → pinsert cmpProducts x l = some l' →
      List.Chain' pOK l' := by
  induction l with
  | nil =>
    intro l' _ h
    simp only [pinsert, Option.some.injEq] at h
    subst h
    simp
  | cons y t ih =>
    intro l' hch h
    simp only [pinsert] at h
    cases hc : cmpProducts x y with
    | none => rw [hc] at h; cases h
    | some o =>
      rw [hc] at h
      cases o with
      | lt =>
        simp only [Option.some.injEq] at h
        subst h
        exact List.chain'_cons.mpr ⟨Or.inl hc, hch⟩
      | eq =>
        simp only [Option.some.injEq] at h
        subst h
        exact List.chain'_cons.mpr ⟨Or.inr hc, hch⟩
      | gt =>
        obtain ⟨t', ht', rfl⟩ := Option.map_eq_some'.mp h
        have ih' := ih t' hch.tail ht'
        rw [List.chain'_cons']
        refine ⟨fun z hz => ?_, ih'⟩
        rcases pinsert_head cmpProducts x t t' ht' with hh | hh
        · rw [hh, Option.mem_def, Option.some.injEq] at hz
          subst hz
          exact Or.inl (cmpProducts_gt_flip hc)
        · rw [hh] at hz
          exact (List.chain'_cons'.mp hch).1 z hz

theorem psort_chain (l : List (String × FVal)) :
    ∀ l', psort cmpProducts l = some l' → List.Chain' pOK l' := by
  induction l with
  | nil =>
    intro l' h
    simp only [psort, Option.some.injEq] at h
    subst h
    simp
  | cons x t ih =>
    intro l' h
    simp only [psort] at h
    cases hs : psort cmpProducts t with
    | none => rw [hs] at h; cases h
    | some t' =>
      rw [hs] at h
      exact pinsert_chain x t' l' (ih t' hs) h

theorem isNan_false_iff (v : FVal) : v.isNan = false ↔ v ≠ .nan := by
  cases v <;> simp [FVal.isNan]

theorem cmpProducts_ne_none {x y : String × FVal}
    (hx : x.2.isNan = false) (hy : y.2.isNan = false) :
    cmpProducts x y ≠ none := by
  rw [cmpProducts, Ne, FVal.cmpPartial_eq_none_iff]
  rintro (h | h)
  · exact (isNan_false_iff _).mp hy h
  · exact (isNan_false_iff _).mp hx h

theorem pinsert_isSome (x : String × FVal) (hx : x.2.isNan = false)
    (l : List (String × FVal)) (hl : ∀ e ∈ l, e.2.isNan = false) :
    (pinsert cmpProducts x l).isSome := by
  induction l with
  | nil => simp [pinsert]
  | cons y t ih =>
    have hy : y.2.isNan = false := hl y (List.mem_cons_self y t)
    simp only [pinsert]
    cases hc : cmpProducts x y with
    | none => exact absurd hc (cmpProducts_ne_none hx hy)
    | some o =>
      cases o with
      | lt => simp
      | eq => simp
      | gt =>
        have := ih (fun e he => hl e (List.mem_cons_of_mem y he))
        obtain ⟨t', ht'⟩ := Option.isSome_iff_exists.mp this
        simp [ht']

theorem psort_isSome (l : List (String × FVal))
    (hl : ∀ e ∈ l, e.2.isNan = false) : (psort cmpProducts l).isSome := by
  induction l with
  | nil => simp [psort]
  | cons x t ih =>
    have := ih (fun e he => hl e (List.mem_cons_of_mem x he))
    obtain ⟨t', ht'⟩ := Option.isSome_iff_exists.mp this
    simp only [psort, ht']
    have hperm := psort_perm cmpProducts t t' ht'
    exact pinsert_isSome x (hl x (List.mem_cons_self x t)) t'
      (fun e he => hl e (List.mem_cons_of_mem x (hperm.mem_iff.mp he)))

theorem psort_none_of_nan (l : List (String × FVal)) :
    2 ≤ l.length → (∃ e ∈ l, e.2.isNan = true) → psort cmpProducts l = none := by
  induction l with
  | nil => intro h; simp at h
  | cons x t ih =>
    intro hlen hex
    have htne : t ≠ [] := by
      intro h
      subst h
      simp at hlen
    simp only [psort]
    cases hs : psort cmpProducts t with
    | none => rfl
    | some t' =>
      have hperm := psort_perm cmpProducts t t' hs
      rcases hex with ⟨e, he, hnan⟩
      have hnan' : e.2 = .nan := by
        cases h2 : e.2 <;> simp [FVal.isNan, h2] at hnan ⊢
      rcases List.mem_cons.mp he with rfl | het
      · -- the head is the NaN element; it is compared with the head of `t'`
        have ht'ne : t' ≠ [] := by
          intro h
          subst h
          exact htne (List.length_eq_zero.mp (by simpa using hperm.length_eq.symm))
        obtain ⟨z, t'', rfl⟩ := List.exists_cons_of_ne_nil ht'ne
        simp only [pinsert]
        rw [show cmpProducts e z = none from by
          rw [cmpProducts, FVal.cmpPartial_eq_none_iff]
          exact Or.inr hnan']
      · -- the NaN element is in the tail
        cases t with
        | nil => exact absurd rfl htne
        | cons y t₂ =>
          cases t₂ with
          | nil =>
            -- `t = [y]`, so `e = y` is NaN and `t' = [y]`
            rcases List.mem_singleton.mp het with rfl
            have ht' : t' = [e] := by
              simp only [psort, pinsert, Option.some.injEq] at hs
              exact hs.symm
            subst ht'
            simp only [pinsert]
            rw [show cmpProducts x e = none from by
              rw [cmpProducts, FVal.cmpPartial_eq_none_iff]
              exact Or.inl hnan']
          | cons z t₃ =>
            have : psort cmpProducts (y :: z :: t₃) = none :=
              ih (by simp) ⟨e, het, hnan⟩
            rw [this] at hs
            cases hs

theorem psort_eq_none_iff (l : List (String × FVal)) :
    psort cmpProducts l = none ↔ 2 ≤ l.length ∧ ∃ e ∈ l, e.2.isNan = true := by
  constructor
  · intro h
    by_contra hc
    rw [not_and_or] at hc
    rcases hc with hlen | hnan
    · -- length ≤ 1: the sort performs no comparison and succeeds
      interval_cases hl : l.length
      · rw [List.length_eq_zero.mp hl] at h
        simp [psort] at h
      · obtain ⟨x, hx⟩ := List.length_eq_one.mp hl
        rw [hx] at h
        simp [psort, pinsert] at h
    · push_neg at hnan
      have : ∀ e ∈ l, e.2.isNan = false := by
        intro e he
        have := hnan e he
        simpa using this
      have := psort_isSome l this
      rw [h] at this
      cases this
  · rintro ⟨hlen, hex⟩
    exact psort_none_of_nan l hlen hex

/-! ## Support lemmas for the claims -/

theorem process_rows_eq (mi pi si : ℕ) (rows : List Record) :
    process_rows mi pi si rows =
      (parseAll mi pi si rows).map (applyAll emptyState) :=
  foldRows_eq_parseAll mi pi si rows emptyState

/-- Inversion of a successful plot-data preparation. -/
theorem prepare_ok_elim {s : AggState} {ms : List (DateKey × FVal)}
    {pd : List (String × FVal)}
    (h : prepare_data_for_plotting s = some (ms, pd)) :
    ms = List.insertionSort mLE (s.1.map (fun e => (key_to_date e.1, e.2))) ∧
      psort cmpProducts s.2 = some pd := by
  rw [prepare_data_for_plotting] at h
  cases hp : psort cmpProducts s.2 with
  | none => rw [hp] at h; cases h
  | some pd' =>
    rw [hp] at h
    simp only [Option.some.injEq, Prod.mk.injEq] at h
    exact ⟨h.1.symm, by rw [h.2]⟩

theorem prepare_eq_none_iff (s : AggState) :
    prepare_data_for_plotting s = none ↔ psort cmpProducts s.2 = none := by
  rw [prepare_data_for_plotting]
  cases psort cmpProducts s.2 <;> simp

theorem map_key_to_date (m : AggMap DateKey) :
    m.map (fun e => (key_to_date e.1, e.2)) = m := by
  simp [key_to_date]

/-- Errors of defensive embeddings (`true` on `Except.error`). -/
def isErr {α : Type} : Except String α → Bool
  | .error _ => true
  | .ok _ => false

theorem isErr_map {α β : Type} (f : α → β) (x : Except String α) :
    isErr (Except.map f x) = isErr x := by
  cases x <;> rfl

/-- Does the month field of a record fail to parse (after appending `-01`)? -/
def badMonthB (mi : ℕ) (r : Record) : Bool :=
  match parseNaiveDate (r.getD mi "" ++ "-01") with
  | .error _ => true
  | .ok _ => false

/-- Field count and amount field of a record are well-formed. -/
def otherOKB (si : ℕ) (r : Record) : Bool :=
  r.length == 3 &&
    match parseF64 (r.getD si "") with
    | .ok _ => true
    | .error _ => false

/-- The chrono error text of a failed date parse (empty on success). -/
def dateErr (s : String) : String :=
  match parseNaiveDate s with
  | .error e => e
  | .ok _ => ""

theorem badMonth_false_of_ok {mi pi si : ℕ} {r : Record} {p : ParsedRow}
    (h : parseRecord mi pi si r = .ok p) : badMonthB mi r = false := by
  simp only [parseRecord] at h
  by_cases hlen : r.length ≠ 3
  · rw [if_pos hlen] at h; cases h
  · rw [if_neg hlen] at h
    rw [badMonthB]
    cases hd : parseNaiveDate (r.getD mi "" ++ "-01") with
    | error e => rw [hd] at h; cases h
    | ok d => rfl

theorem parseRecord_ok_of (mi pi si : ℕ) (r : Record)
    (hok : otherOKB si r = true) (hbm : badMonthB mi r = false) :
    ∃ p, parseRecord mi pi si r = .ok p := by
  rw [otherOKB, Bool.and_eq_true, beq_iff_eq] at hok
  obtain ⟨hlen, hamt⟩ := hok
  rw [badMonthB] at hbm
  cases hd : parseNaiveDate (r.getD mi "" ++ "-01") with
  | error e => rw [hd] at hbm; cases hbm
  | ok d =>
    cases hf : parseF64 (r.getD si "") with
    | error e => rw [hf] at hamt; cases hamt
    | ok v =>
      refine ⟨(date_to_key d, r.getD pi "", v), ?_⟩
      simp only [parseRecord, hlen, if_neg (by omega : ¬(3 ≠ 3)), hd, hf]

theorem parseAll_isErr_of_badMonth (mi pi si : ℕ) (rows : List Record)
    (h : ∃ r ∈ rows, badMonthB mi r = true) :
    isErr (parseAll mi pi si rows) = true := by
  induction rows with
  | nil => simp at h
  | cons r t ih =>
    rcases h with ⟨r', hr', hbad⟩
    rcases List.mem_cons.mp hr' with rfl | hrt
    · cases hp : parseRecord mi pi si r' with
      | error e => simp [parseAll, hp, isErr]
      | ok p => rw [badMonth_false_of_ok hp] at hbad; cases hbad
    · cases hp : parseRecord mi pi si r with
      | error e => simp [parseAll, hp, isErr]
      | ok p =>
        have hih := ih ⟨r', hrt, hbad⟩
        simp only [parseAll, hp]
        cases hq : parseAll mi pi si t with
        | error e => simp [isErr]
        | ok ps => rw [hq] at hih; simp [isErr] at hih

theorem parseAll_error_first_badMonth (mi pi si : ℕ) (rows : List Record)
    (rb : Record) (hall : ∀ r ∈ rows, otherOKB si r = true) :
    rows.find? (badMonthB mi) = some rb →
    parseAll mi pi si rows =
      .error ("Invalid date format in \"" ++ rb.getD mi "" ++ "\": " ++
        dateErr (rb.getD mi "" ++ "-01")) := by
  induction rows with
  | nil => intro hfind; simp at hfind
  | cons r t ih =>
    intro hfind
    cases hb : badMonthB mi r with
    | true =>
      rw [List.find?_cons_of_pos t hb, Option.some.injEq] at hfind
      subst hfind
      have hlen : r.length = 3 := by
        have := hall r (List.mem_cons_self r t)
        rw [otherOKB, Bool.and_eq_true, beq_iff_eq] at this
        exact this.1
      rw [badMonthB] at hb
      cases hd : parseNaiveDate (r.getD mi "" ++ "-01") with
      | ok d => rw [hd] at hb; cases hb
      | error e =>
        have hde : dateErr (r.getD mi "" ++ "-01") = e := by
          rw [dateErr, hd]
        rw [hde]
        simp only [parseAll, parseRecord, hlen, if_neg (by omega : ¬(3 ≠ 3)), hd]
    | false =>
      rw [List.find?_cons_of_neg t (by simp [hb])] at hfind
      obtain ⟨p, hp⟩ :=
        parseRecord_ok_of mi pi si r (hall r (List.mem_cons_self r t)) hb
      simp only [parseAll, hp]
      rw [ih (fun r' hr' => hall r' (List.mem_cons_of_mem r hr')) hfind]

theorem validate_ok_iff (headers : List String) :
    validate_csv_structure headers = .ok () ↔
      headers.length = 3 ∧
        ∀ e ∈ (["month", "product", "sales_amount"] : List String),
          ∃ h ∈ headers, lowerStr h = e := by
  rw [validate_csv_structure]
  by_cases h3 : headers.length ≠ 3
  · rw [if_pos h3]
    constructor
    · intro h; cases h
    · rintro ⟨h, _⟩; exact absurd h h3
  · rw [if_neg h3]
    cases hf : ["month", "product", "sales_amount"].find?
        (fun e => !headers.any fun h => lowerStr h == e) with
    | some e =>
      constructor
      · intro h; cases h
      · rintro ⟨_, hall⟩
        have hmem := List.mem_of_find?_eq_some hf
        have hpe := List.find?_some hf
        simp only [Bool.not_eq_eq_eq_not, Bool.not_true, List.any_eq_false,
          beq_iff_eq] at hpe
        obtain ⟨h, hh, hlh⟩ := hall e hmem
        exact absurd hlh (hpe h hh)
    | none =>
      constructor
      · intro _
        refine ⟨by omega, fun e he => ?_⟩
        have hne := List.find?_eq_none.mp hf e he
        have h2 : (headers.any fun h => lowerStr h == e) = true := by
          revert hne
          cases headers.any fun h => lowerStr h == e <;> simp
        simpa [List.any_eq_true, beq_iff_eq] using h2
      · intro _
        rfl

/-- Pigeonhole: three required names present among three columns means the
lowercased header set is exactly the required set. -/
theorem header_set_of_mem (headers : List String) (h3 : headers.length = 3)
    (hall : ∀ e ∈ (["month", "product", "sales_amount"] : List String),
      ∃ h ∈ headers, lowerStr h = e) :
    (headers.map lowerStr).toFinset =
      {"month", "product", "sales_amount"} := by
  have hsub : ({"month", "product", "sales_amount"} : Finset String) ⊆
      (headers.map lowerStr).toFinset := by
    intro x hx
    simp only [Finset.mem_insert, Finset.mem_singleton] at hx
    have : x ∈ (["month", "product", "sales_amount"] : List String) := by
      rcases hx with rfl | rfl | rfl <;> simp
    obtain ⟨h, hh, hlh⟩ := hall x this
    rw [List.mem_toFinset, List.mem_map]
    exact ⟨h, hh, hlh⟩
  have hcard : (headers.map lowerStr).toFinset.card ≤ 3 := by
    calc (headers.map lowerStr).toFinset.card
        ≤ (headers.map lowerStr).length := List.toFinset_card_le _
      _ = 3 := by simp [h3]
  have h3' : ({"month", "product", "sales_amount"} : Finset String).card = 3 := by
    decide
  exact (Finset.eq_of_subset_of_card_le hsub (by rw [h3']; exact hcard)).symm

theorem findIdx?_isSome_of_exists {α : Type} (p : α → Bool) (l : List α) :
    ∀ i, (∃ x ∈ l, p x = true) → (List.findIdx? p l i).isSome := by
  induction l with
  | nil => intro i h; simp at h
  | cons x t ih =>
    intro i h
    rw [List.findIdx?_cons]
    cases hp : p x with
    | true => simp
    | false =>
      rcases h with ⟨y, hy, hpy⟩
      rcases List.mem_cons.mp hy with rfl | hyt
      · rw [hp] at hpy; cases hpy
      · simpa using ih (i + 1) ⟨y, hyt, hpy⟩

/-! ## Further concrete inputs used by the claims -/

/-- The parsed rows of the end-to-end example. -/
def exParsed : List ParsedRow :=
  [(daysFromCE 2023 1 1, "Product A", .finite 100.50),
   (daysFromCE 2023 1 1, "Product B", .finite 200.75),
   (daysFromCE 2023 2 1, "Product A", .finite 150.25),
   (daysFromCE 2023 2 1, "Product B", .finite 180.00)]

/-- The expected `monthly_series` of the end-to-end example. -/
def exMonthly : List (DateKey × FVal) :=
  [(daysFromCE 2023 1 1, .finite 301.25), (daysFromCE 2023 2 1, .finite 330.25)]

/-- The expected `product_series` of the end-to-end example. -/
def exProducts : List (String × FVal) :=
  [("Product B", .finite 380.75), ("Product A", .finite 250.75)]

/-- The example rows split into two contiguous chunks (two workers). -/
def exChunks : List (List Record) :=
  [[["2023-01", "Product A", "100.50"], ["2023-01", "Product B", "200.75"]],
   [["2023-02", "Product A", "150.25"], ["2023-02", "Product B", "180.00"]]]

/-- A row with a bad amount before the row with the bad month. -/
def exBadRows : List Record :=
  [["2023-01", "A", "abc"], ["2023-13", "A", "100"]]

/-- Non-NaN amounts whose product sum is NaN (`inf + -inf`). -/
def exNanRows : List Record :=
  [["2023-01", "P", "inf"], ["2023-01", "P", "-inf"], ["2023-01", "Q", "1"]]

/-! ## The claims -/

/-- C1: for the four-row input `[("2023-01","Product A",100.50),
("2023-01","Product B",200.75), ("2023-02","Product A",150.25),
("2023-02","Product B",180.00)]` with a valid header, aggregation followed by
plot-data preparation yields `monthly_series = [(2023-01, 301.25),
(2023-02, 330.25)]` and `product_series = [("Product B", 380.75),
("Product A", 250.75)]` (month keys shown as `num_days_from_ce` of the
month's first day). -/
theorem claim1_end_to_end :
    process_sales_data exHeaders exRows = some (.ok exState) ∧
    prepare_data_for_plotting exState = some (exMonthly, exProducts) := by
  constructor <;> decide

/-- C2: whenever every row parses, the total of `monthly_series`, the total
of `product_series` and the total of all parsed row amounts coincide
(conservation of the total across both aggregation axes; exact in the
rational idealization of `f64`). -/
theorem claim2_conservation (mi pi si : ℕ) (rows : List Record)
    (ps : List ParsedRow) (s : AggState) (ms : List (DateKey × FVal))
    (pd : List (String × FVal))
    (hparse : parseAll mi pi si rows = .ok ps)
    (hok : process_rows mi pi si rows = .ok s)
    (hprep : prepare_data_for_plotting s = some (ms, pd)) :
    (ms.map Prod.snd).sum = (ps.map (fun p => p.2.2)).sum ∧
    (pd.map Prod.snd).sum = (ps.map (fun p => p.2.2)).sum := by
  rw [process_rows_eq, hparse] at hok
  simp only [Except.map, Except.ok.injEq] at hok
  obtain ⟨hms, hps⟩ := prepare_ok_elim hprep
  rw [map_key_to_date] at hms
  have hsum1 : entrySum s.1 = (ps.map (fun p => p.2.2)).sum := by
    rw [← hok, applyAll_eq]
    show entrySum (accum ([] : AggMap DateKey) (monthPairs ps)) = _
    rw [entrySum_accum]
    simp [entrySum, monthPairs, List.map_map, Function.comp]
    rfl
  have hsum2 : entrySum s.2 = (ps.map (fun p => p.2.2)).sum := by
    rw [← hok, applyAll_eq]
    show entrySum (accum ([] : AggMap String) (prodPairs ps)) = _
    rw [entrySum_accum]
    simp [entrySum, prodPairs, List.map_map, Function.comp]
    rfl
  constructor
  · rw [hms]
    have hperm := (List.perm_insertionSort mLE s.1).map Prod.snd
    rw [hperm.sum_eq]
    exact hsum1
  · have hperm := (psort_perm cmpProducts s.2 pd hps).map Prod.snd
    rw [hperm.sum_eq]
    exact hsum2

/-- Witness for C2 at the end-to-end example input. -/
theorem claim2_witness :
    (exMonthly.map Prod.snd).sum = (exParsed.map (fun p => p.2.2)).sum ∧
    (exProducts.map Prod.snd).sum = (exParsed.map (fun p => p.2.2)).sum :=
  claim2_conservation 0 1 2 exRows exParsed exState exMonthly exProducts
    (by decide) (by decide) (by decide)

/-- C3: the final aggregate pair of the partitioned fold-merge does not
depend on the chunking: for every contiguous partition of the rows, its
result has exactly the same map lookups as the sequential left-to-right
fold of the joined rows (exact equality in the rational idealization, which
subsumes the claim's floating-point tolerance). -/
theorem claim3_partition_invariance (mi pi si : ℕ) (css : List (List Record))
    (s t : AggState)
    (hchunk : process_chunks mi pi si css = .ok s)
    (hseq : process_rows mi pi si css.flatten = .ok t) :
    (∀ k, alookup s.1 k = alookup t.1 k) ∧
    (∀ k, alookup s.2 k = alookup t.2 k) := by
  rw [process_rows_eq] at hseq
  cases hp : parseAll mi pi si css.flatten with
  | error e => rw [hp] at hseq; cases hseq
  | ok PS =>
    rw [hp] at hseq
    simp only [Except.map, Except.ok.injEq] at hseq
    obtain ⟨s', hs', h₁, h₂⟩ := process_chunks_ok mi pi si css emptyState PS hp
    rw [process_chunks, hs'] at hchunk
    simp only [Except.ok.injEq] at hchunk
    subst hchunk
    constructor
    · intro k
      rw [h₁ k, ← hseq, applyAll_eq]
    · intro k
      rw [h₂ k, ← hseq, applyAll_eq]

/-- Witness for C3: the example rows split into two chunks versus the
sequential fold. -/
theorem claim3_witness :
    alookup exState.1 (daysFromCE 2023 1 1) =
      alookup exState.1 (daysFromCE 2023 1 1) ∧
    alookup exState.2 "Product A" = alookup exState.2 "Product A" :=
  ⟨(claim3_partition_invariance 0 1 2 exChunks exState exState
      (by decide) (by decide)).1 (daysFromCE 2023 1 1),
   (claim3_partition_invariance 0 1 2 exChunks exState exState
      (by decide) (by decide)).2 "Product A"⟩

/-- C4 (amended): an input with a row whose month does not parse always
makes the whole aggregation fail with no partial result; and when every row
is otherwise well-formed (three fields, parseable amount), the error is the
date error of the first bad-month row and its message contains that row's
raw month text.  (As originally stated the claim is false: an earlier row
failing for a different reason — e.g. a bad amount — preempts the month
error, see the counterexample.) -/
theorem claim4_amended (mi pi si : ℕ) (rows : List Record) (rb : Record)
    (hbad : ∃ r ∈ rows, badMonthB mi r = true) :
    isErr (process_rows mi pi si rows) = true ∧
    ((∀ r ∈ rows, otherOKB si r = true) →
      rows.find? (badMonthB mi) = some rb →
      process_rows mi pi si rows =
        .error ("Invalid date format in \"" ++ rb.getD mi "" ++ "\": " ++
          dateErr (rb.getD mi "" ++ "-01")) ∧
      (rb.getD mi "").data <:+:
        ("Invalid date format in \"" ++ rb.getD mi "" ++ "\": " ++
          dateErr (rb.getD mi "" ++ "-01")).data) := by
  constructor
  · rw [process_rows_eq, isErr_map]
    exact parseAll_isErr_of_badMonth mi pi si rows hbad
  · intro hall hfind
    have herr := parseAll_error_first_badMonth mi pi si rows rb hall hfind
    constructor
    · rw [process_rows_eq, herr]
      rfl
    · refine ⟨"Invalid date format in \"".data,
        ("\": " ++ dateErr (rb.getD mi "" ++ "-01")).data, ?_⟩
      simp [String.data_append, List.append_assoc]

/-- Counterexample for C4 as frozen: `exBadRows` contains the bad-month row
`["2023-13","A","100"]`, yet the aggregation error message is the amount
error of the earlier row and does not reference `"2023-13"`. -/
theorem claim4_counterexample :
    badMonthB 0 ["2023-13", "A", "100"] = true ∧
    process_rows 0 1 2 exBadRows =
      .error "Invalid sales number in \"abc\": invalid float literal" ∧
    ¬ ("2023-13".data <:+:
      "Invalid sales number in \"abc\": invalid float literal".data) := by
  refine ⟨by decide, by decide, by decide⟩

/-- Witness for C4 (amended) at the spec's example row
`"2023-13,ProductA,100"`. -/
theorem claim4_witness :
    isErr (process_rows 0 1 2 [["2023-13", "ProductA", "100"]]) = true ∧
    process_rows 0 1 2 [["2023-13", "ProductA", "100"]] =
      .error ("Invalid date format in \"" ++
        (["2023-13", "ProductA", "100"] : Record).getD 0 "" ++ "\": " ++
        dateErr ((["2023-13", "ProductA", "100"] : Record).getD 0 "" ++ "-01")) :=
  ⟨(claim4_amended 0 1 2 [["2023-13", "ProductA", "100"]]
      ["2023-13", "ProductA", "100"] (by decide)).1,
   ((claim4_amended 0 1 2 [["2023-13", "ProductA", "100"]]
      ["2023-13", "ProductA", "100"] (by decide)).2
      (by decide) (by decide)).1⟩

/-- C5: the claim (and spec §7) requires an `EmptyAggregateError` when the
aggregates are empty, but the code has no such error: on a header-only
input, aggregation succeeds with empty maps, `prepare_data_for_plotting`
silently returns empty series, and `create_line_chart` then panics on
`monthly_data.first().unwrap()` (the `none` of `lineChartRange`). -/
theorem claim5_empty_input :
    process_sales_data exHeaders [] = some (.ok ([], [])) ∧
    prepare_data_for_plotting ([], []) = some ([], []) ∧
    lineChartRange [] = none := by
  refine ⟨by decide, by decide, rfl⟩

/-- C6: schema validation succeeds exactly when the header has three columns
whose lowercased names form the set `{month, product, sales_amount}` (any
order, any case); with a wrong column count it reports
`"Invalid column length"`, and with three columns but a missing required
name it reports the first missing name. -/
theorem claim6_schema_validation (headers : List String) :
    (validate_csv_structure headers = .ok () ↔
      headers.length = 3 ∧
        (headers.map lowerStr).toFinset =
          {"month", "product", "sales_amount"}) ∧
    (headers.length ≠ 3 →
      validate_csv_structure headers = .error "Invalid column length") ∧
    (∀ e, headers.length = 3 →
      (["month", "product", "sales_amount"] : List String).find?
        (fun x => !headers.any (fun h => lowerStr h == x)) = some e →
      validate_csv_structure headers = .error ("Missing column: " ++ e)) := by
  refine ⟨?_, ?_, ?_⟩
  · rw [validate_ok_iff]
    constructor
    · rintro ⟨h3, hall⟩
      exact ⟨h3, header_set_of_mem headers h3 hall⟩
    · rintro ⟨h3, hset⟩
      refine ⟨h3, fun e he => ?_⟩
      have he' : e ∈ ({"month", "product", "sales_amount"} : Finset String) := by
        simp only [List.mem_cons, List.not_mem_nil, or_false] at he
        rcases he with rfl | rfl | rfl <;> decide
      rw [← hset, List.mem_toFinset, List.mem_map] at he'
      obtain ⟨h, hh, hlh⟩ := he'
      exact ⟨h, hh, hlh⟩
  · intro h3
    rw [validate_csv_structure, if_pos h3]
  · intro e h3 hfind
    rw [validate_csv_structure, if_neg (by omega), hfind]

/-- Witness for C6: the spec's reordered, mixed-case header is accepted. -/
theorem claim6_witness :
    validate_csv_structure ["Sales_Amount", "Month", "Product"] = .ok () :=
  (claim6_schema_validation ["Sales_Amount", "Month", "Product"]).1.mpr
    ⟨by decide, by decide⟩

/-- C7: for every input that aggregates successfully and prepares plot data,
`monthly_series` is strictly ascending by month key (hence chronological,
with no duplicate keys). -/
theorem claim7_monthly_strictly_ascending (mi pi si : ℕ) (rows : List Record)
    (s : AggState) (ms : List (DateKey × FVal)) (pd : List (String × FVal))
    (hok : process_rows mi pi si rows = .ok s)
    (hprep : prepare_data_for_plotting s = some (ms, pd)) :
    List.Pairwise (fun a b : DateKey × FVal => a.1 < b.1) ms := by
  rw [process_rows_eq] at hok
  cases hp : parseAll mi pi si rows with
  | error e => rw [hp] at hok; cases hok
  | ok ps =>
    rw [hp] at hok
    simp only [Except.map, Except.ok.injEq] at hok
    obtain ⟨hms, _⟩ := prepare_ok_elim hprep
    rw [map_key_to_date] at hms
    have hnd : ((s.1).map Prod.fst).Nodup := by
      rw [← hok, applyAll_eq]
      exact nodup_keys_accum (by exact List.nodup_nil) _
    have hperm := List.perm_insertionSort mLE s.1
    have hnd' : (ms.map Prod.fst).Nodup := by
      rw [hms]
      exact ((hperm.map Prod.fst).nodup_iff).mpr hnd
    have hpair : List.Pairwise mLE ms := by
      rw [hms]
      exact List.sorted_insertionSort mLE s.1
    have hne : List.Pairwise (fun a b : DateKey × FVal => a.1 ≠ b.1) ms :=
      List.pairwise_map.mp hnd'
    exact (hpair.and hne).imp (fun h => lt_of_le_of_ne h.1 h.2)

/-- Witness for C7 at the end-to-end example input. -/
theorem claim7_witness :
    List.Pairwise (fun a b : DateKey × FVal => a.1 < b.1) exMonthly :=
  claim7_monthly_strictly_ascending 0 1 2 exRows exState exMonthly exProducts
    (by decide) (by decide)

/-- C8: for every input that aggregates successfully and prepares plot data,
`product_series` is non-increasing by its summed value (in the `partial_cmp`
order on amounts). -/
theorem claim8_products_nonincreasing (mi pi si : ℕ) (rows : List Record)
    (s : AggState) (ms : List (DateKey × FVal)) (pd : List (String × FVal))
    (hok : process_rows mi pi si rows = .ok s)
    (hprep : prepare_data_for_plotting s = some (ms, pd)) :
    List.Pairwise (fun a b : String × FVal => FVal.fle b.2 a.2) pd := by
  obtain ⟨_, hps⟩ := prepare_ok_elim hprep
  have hch := psort_chain s.2 pd hps
  have hp := List.chain'_iff_pairwise.mp hch
  exact hp.imp (fun h => h)

/-- Witness for C8 at the end-to-end example input. -/
theorem claim8_witness :
    List.Pairwise (fun a b : String × FVal => FVal.fle b.2 a.2) exProducts :=
  claim8_products_nonincreasing 0 1 2 exRows exState exMonthly exProducts
    (by decide) (by decide)

/-- C9: whenever schema validation succeeds, the three case-insensitive
position lookups all find an index, so the `unwrap` calls after validation
cannot panic (`process_sales_data` never returns the panic marker `none`). -/
theorem claim9_unwraps_safe (headers : List String)
    (hok : validate_csv_structure headers = .ok ()) :
    (List.findIdx? (fun h => lowerStr h == "month") headers).isSome ∧
    (List.findIdx? (fun h => lowerStr h == "product") headers).isSome ∧
    (List.findIdx? (fun h => lowerStr h == "sales_amount") headers).isSome ∧
    ∀ records, (process_sales_data headers records).isSome := by
  obtain ⟨h3, hall⟩ := (validate_ok_iff headers).mp hok
  have hm := findIdx?_isSome_of_exists (fun h => lowerStr h == "month") headers 0
    (by obtain ⟨h, hh, he⟩ := hall "month" (by simp); exact ⟨h, hh, by simp [he]⟩)
  have hp := findIdx?_isSome_of_exists (fun h => lowerStr h == "product") headers 0
    (by obtain ⟨h, hh, he⟩ := hall "product" (by simp); exact ⟨h, hh, by simp [he]⟩)
  have hs := findIdx?_isSome_of_exists
    (fun h => lowerStr h == "sales_amount") headers 0
    (by obtain ⟨h, hh, he⟩ := hall "sales_amount" (by simp)
        exact ⟨h, hh, by simp [he]⟩)
  refine ⟨hm, hp, hs, fun records => ?_⟩
  obtain ⟨mi, hmi⟩ := Option.isSome_iff_exists.mp hm
  obtain ⟨pI, hpI⟩ := Option.isSome_iff_exists.mp hp
  obtain ⟨sI, hsI⟩ := Option.isSome_iff_exists.mp hs
  simp [process_sales_data, hok, hmi, hpI, hsI]

/-- Witness for C9 at the canonical header. -/
theorem claim9_witness :
    (process_sales_data ["month", "product", "sales_amount"] []).isSome :=
  (claim9_unwraps_safe ["month", "product", "sales_amount"] (by decide)).2.2.2 []

/-- C10 (amended): the amount parser follows Rust's `f64` grammar (accepting
`NaN`, `inf` and exponent notation); preparing plot data panics in the
descending product sort exactly when some aggregated product sum is NaN and
there are at least two product entries.  (As originally stated the claim is
false: non-NaN amounts do not prevent the panic, since `inf + -inf = NaN` —
see the counterexample — and a single NaN product is sorted without any
comparison, hence without panic.) -/
theorem claim10_amended :
    parseF64 "NaN" = .ok .nan ∧ parseF64 "inf" = .ok .posInf ∧
    parseF64 "-2.5e3" = .ok (.finite (-2500)) ∧
    ∀ s : AggState, (prepare_data_for_plotting s = none ↔
      2 ≤ s.2.length ∧ ∃ e ∈ s.2, e.2.isNan = true) := by
  refine ⟨by decide, by decide, by decide, fun s => ?_⟩
  rw [prepare_eq_none_iff, psort_eq_none_iff]

/-- Counterexample for C10 as frozen: all amounts of `exNanRows` are
non-NaN (`inf`, `-inf`, `1`), yet product `P` sums to NaN and the
descending sort panics. -/
theorem claim10_counterexample :
    parseF64 "inf" = .ok .posInf ∧ parseF64 "-inf" = .ok .negInf ∧
    parseF64 "1" = .ok (.finite 1) ∧
    process_rows 0 1 2 exNanRows =
      .ok ([(daysFromCE 2023 1 1, .nan)], [("P", .nan), ("Q", .finite 1)]) ∧
    prepare_data_for_plotting
      ([(daysFromCE 2023 1 1, .nan)], [("P", .nan), ("Q", .finite 1)]) = none := by
  refine ⟨by decide, by decide, by decide, by decide, by decide⟩

/-- Witness for C10 (amended): a two-product aggregate with one NaN sum
panics. -/
theorem claim10_witness :
    prepare_data_for_plotting ([], [("A", .nan), ("B", .finite 1)]) = none :=
  (claim10_amended.2.2.2 ([], [("A", .nan), ("B", .finite 1)])).mpr (by decide)

end SalesChart
